import Mathlib

/-!
Verification of the consolidation engine of `cargo-consolidate`.

The development shallowly embeds the relevant parts of the Rust sources:

* `src/dependency.rs` : `get_features`, `merge_features`,
  `get_dependency_from_member` (pure functions over `toml_edit` items);
* `src/workspace.rs`  : `get_workspace_dependencies`,
  `add_dependency_to_workspace`, `update_member_to_use_workspace`, and
  the dependency-processing loop of `consolidate_dependencies`;
* `src/main.rs`       : the inline duplicate `update_member_to_use_workspace`
  (which copies the member's features value verbatim).

TOML documents are modelled as order-preserving association lists, matching
`toml_edit`'s `DocumentMut`/`Table` (an insertion-ordered map with unique
keys whose serialization reproduces table order).  `BTreeSet<String>` is
modelled by insertion into a sorted duplicate-free list.  File I/O becomes
explicit state passing: the set of member manifests on disk is a map from
manifest path to document, and `fs::write` inside the loop is an update of
that map.  The iteration order of Rust's `HashMap`/`HashSet` is an explicit
parameter (`order`, and the order of each `users` list), since the source
iterates unordered collections.  `Result`/panic-style failures become an
explicit error type.
-/

namespace CargoConsolidate

/-- Model of `toml_edit::Value`: the value forms the engine touches. -/
inductive TomlValue : Type where
  | vStr (s : String)
  | vBool (b : Bool)
  | vInt (n : Int)
  | vArr (xs : List TomlValue)
  | vInline (kvs : List (String × TomlValue))
deriving Repr

/-- Model of `toml_edit::Item`: none, a value, or a (non-inline) table. -/
inductive TomlItem : Type where
  | itNone
  | value (v : TomlValue)
  | table (kvs : List (String × TomlItem))
deriving Repr

/-- A parsed document (`toml_edit::DocumentMut`): its top-level table. -/
abbrev Doc := List (String × TomlItem)

/-- Lookup in an ordered table: `Table::get` / `HashMap::get`. -/
def tblGet {α : Type} (k : String) : List (String × α) → Option α
  | [] => none
  | (k1, v) :: rest => if k1 = k then some v else tblGet k rest

/-- Insert into an ordered table: `toml_edit`'s `insert` replaces the value
in place when the key exists (keeping its position) and appends otherwise. -/
def tblInsert {α : Type} (k : String) (v : α) : List (String × α) → List (String × α)
  | [] => [(k, v)]
  | (k1, v1) :: rest => if k1 = k then (k, v) :: rest else (k1, v1) :: tblInsert k v rest

/-- Rewrite the value stored at a key in place, leaving the table unchanged
when the key is absent.  This is `contains_key` followed by `get` and an
in-place `insert`, as the member rewriters do (tables have unique keys). -/
def mapAtKey {α : Type} (k : String) (f : α → α) : List (String × α) → List (String × α)
  | [] => []
  | (k1, v) :: rest =>
    if k1 = k then (k1, f v) :: mapAtKey k f rest else (k1, v) :: mapAtKey k f rest

/-- View an item as table-like (`Item::as_table_like`): a table, or an
inline-table value whose entries are value items. -/
def asTableLikeKvs : TomlItem → Option (List (String × TomlItem))
  | .table kvs => some kvs
  | .value (.vInline kvs) => some (kvs.map fun p => (p.1, .value p.2))
  | _ => none

/-- `Item::as_table`: a proper table only. -/
def itemAsTable : TomlItem → Option (List (String × TomlItem))
  | .table kvs => some kvs
  | _ => none

/-- Whether an item is a proper table. -/
def itemIsTable : TomlItem → Bool
  | .table _ => true
  | _ => false

/-- `Item::as_value`. -/
def itemAsValue : TomlItem → Option TomlValue
  | .value v => some v
  | _ => none

/-- `Value::as_str`. -/
def valueAsStr : TomlValue → Option String
  | .vStr s => some s
  | _ => none

/-- Lexicographic comparison of character lists (the order of `Ord` on
Rust strings), written so that it evaluates by structural recursion. -/
def charsLtb : List Char → List Char → Bool
  | [], [] => false
  | [], _ :: _ => true
  | _ :: _, [] => false
  | x :: xs, y :: ys => if x < y then true else if y < x then false else charsLtb xs ys

/-- Executable string comparison; proven below to agree with `<`. -/
def strLtb (a b : String) : Bool :=
  charsLtb a.toList b.toList

/-- Insertion into a sorted duplicate-free list of strings, modelling
`BTreeSet<String>::insert`. -/
def insertSorted (x : String) : List String → List String
  | [] => [x]
  | y :: ys =>
    if strLtb x y then x :: y :: ys
    else if x = y then y :: ys
    else y :: insertSorted x ys

/-- Extending a `BTreeSet<String>` with a list (`BTreeSet::extend`). -/
def extendSorted (acc : List String) (xs : List String) : List String :=
  xs.foldl (fun a x => insertSorted x a) acc

/-- The ascending iteration of the `BTreeSet` built from a list: the sorted
deduplicated form of the list. -/
def sortDedup (xs : List String) : List String :=
  extendSorted [] xs

/-- Embeds `dependency.rs::get_features`: read the `features` key of a
table-like item as an array and keep its string elements. -/
def get_features (item : TomlItem) : Option (List String) :=
  (asTableLikeKvs item).bind fun tbl =>
  (tblGet "features" tbl).bind fun featuresItem =>
  (itemAsValue featuresItem).bind fun featuresValue =>
  match featuresValue with
  | .vArr xs => some (xs.filterMap valueAsStr)
  | _ => none

/-- Embeds `dependency.rs::merge_features`: collect the features of the
existing item (if any) and of the new item into a `BTreeSet`, and return
the ascending array, or nothing when the set is empty. -/
def merge_features (existing_item : Option TomlItem) (new_item : TomlItem) : Option TomlValue :=
  let s0 : List String := []
  let s1 :=
    match existing_item with
    | some e =>
      match get_features e with
      | some fs => extendSorted s0 fs
      | none => s0
    | none => s0
  let s2 :=
    match get_features new_item with
    | some fs => extendSorted s1 fs
    | none => s1
  if s2.isEmpty then none
  else some (.vArr (s2.map .vStr))

/-- The three dependency sections of a member manifest. -/
def dep_tables : List String := ["dependencies", "build-dependencies", "dev-dependencies"]

/-- Embeds `dependency.rs::get_dependency_from_member` (on the already
parsed document): find the entry in the first of the three sections (as a
proper table) containing it; `none` models the `DependencyNotFound` error. -/
def get_dependency_from_member (doc : Doc) (dep_name : String) : Option TomlItem :=
  dep_tables.foldl
    (fun acc table_name =>
      match acc with
      | some x => some x
      | none =>
        (tblGet table_name doc).bind fun it =>
        (itemAsTable it).bind fun tbl =>
        tblGet dep_name tbl)
    none

/-- The fresh inline table `{ workspace = true }` built by both member
rewriters before features are added. -/
def baseInline : List (String × TomlValue) := [("workspace", .vBool true)]

/-- The rewritten entry produced by `workspace.rs::update_member_to_use_workspace`
for one dependency entry: `{ workspace = true }` plus the features produced
by `merge_features` from the old entry and the featureless new inline table. -/
def rewriteEntry (e : TomlItem) : TomlItem :=
  match merge_features (some e) (.value (.vInline baseInline)) with
  | some features => .value (.vInline (baseInline ++ [("features", features)]))
  | none => .value (.vInline baseInline)

/-- The value form of `rewriteEntry`, used when the section is an inline
table (whose entries are values).  `rewriteEntry` always returns a value. -/
def rewriteEntryVal (v : TomlValue) : TomlValue :=
  match rewriteEntry (.value v) with
  | .value v1 => v1
  | _ => .vInline baseInline

/-- One section update of `workspace.rs::update_member_to_use_workspace`:
if the item is table-like and contains the dependency, replace that entry
in place by its rewritten form; otherwise leave the item unchanged. -/
def sectionF (dep_name : String) : TomlItem → TomlItem
  | .table kvs => .table (mapAtKey dep_name rewriteEntry kvs)
  | .value (.vInline kvs) => .value (.vInline (mapAtKey dep_name rewriteEntryVal kvs))
  | it => it

/-- Embeds `workspace.rs::update_member_to_use_workspace` on the parsed
member document (the surrounding file read/write is handled by the caller
state): update the entry in each of the three sections. -/
def update_member_to_use_workspace (doc : Doc) (dep_name : String) : Doc :=
  dep_tables.foldl (fun d table_name => mapAtKey table_name (sectionF dep_name) d) doc

/-- The `features` value of a table-like item, read the way `main.rs` does:
`as_table_like`, then `get("features")`, then `as_value`. -/
def featValOf (e : TomlItem) : Option TomlValue :=
  (asTableLikeKvs e).bind fun tbl => (tblGet "features" tbl).bind itemAsValue

/-- The rewritten entry produced by the inline duplicate
`main.rs::update_member_to_use_workspace`: `{ workspace = true }` plus the
member's existing `features` value copied verbatim (whatever value it is). -/
def rewriteEntryMain (e : TomlItem) : TomlItem :=
  match featValOf e with
  | some fv => .value (.vInline (baseInline ++ [("features", fv)]))
  | none => .value (.vInline baseInline)

/-- Value form of `rewriteEntryMain`. -/
def rewriteEntryMainVal (v : TomlValue) : TomlValue :=
  match rewriteEntryMain (.value v) with
  | .value v1 => v1
  | _ => .vInline baseInline

/-- One section update of the `main.rs` rewriter. -/
def sectionFMain (dep_name : String) : TomlItem → TomlItem
  | .table kvs => .table (mapAtKey dep_name rewriteEntryMain kvs)
  | .value (.vInline kvs) => .value (.vInline (mapAtKey dep_name rewriteEntryMainVal kvs))
  | it => it

/-- Embeds `main.rs::update_member_to_use_workspace` on the parsed member
document. -/
def update_member_main (doc : Doc) (dep_name : String) : Doc :=
  dep_tables.foldl (fun d table_name => mapAtKey table_name (sectionFMain dep_name) d) doc

/-- Embeds `workspace.rs::get_workspace_dependencies`, keyed view: the
names present in `workspace.dependencies` when both levels are proper
tables (the `and_then` chain of the source), and the empty map otherwise.
(The Rust map's values are only ever consulted through `contains_key`, so
the name list carries the state.) -/
def get_workspace_dependencies (doc : Doc) : List String :=
  (((((tblGet "workspace" doc).bind itemAsTable).bind
      fun ws_table => tblGet "dependencies" ws_table).bind itemAsTable).map
    fun ws_deps => ws_deps.map Prod.fst).getD []

/-- Errors of the pass.  `structuralConflict` models the `unwrap` panic in
`add_dependency_to_workspace` when `workspace` or `workspace.dependencies`
is occupied by a non-table item (the panic aborts the process before the
root document is written, exactly like an error return would). -/
inductive ConsErr : Type where
  | depNotFound (dep member : String)
  | structuralConflict (path : String)
  | missingMember (member : String)
deriving Repr, DecidableEq

/-- The `entry(key).or_insert_with(Table::new).as_table_mut().unwrap()`
idiom: a vacant entry yields a fresh empty table, an occupied proper table
is reused, and an occupied non-table makes the `unwrap` panic (`none`). -/
def entryTable (kvs : List (String × TomlItem)) (k : String) :
    Option (List (String × TomlItem)) :=
  match tblGet k kvs with
  | none => some []
  | some (.table t) => some t
  | some _ => none

/-- Embeds `workspace.rs::add_dependency_to_workspace`: take the first user
in the `HashSet`'s iteration order, read its manifest, fetch its declaration
of the dependency, and insert that declaration into
`workspace.dependencies`, creating the intermediate tables as needed. -/
def add_dependency_to_workspace (members : List (String × Doc)) (root : Doc)
    (dep_name : String) (users : List String) : Except ConsErr Doc :=
  match users.head? with
  | none => .error (.missingMember "")
  | some first_user =>
    match tblGet first_user members with
    | none => .error (.missingMember first_user)
    | some mdoc =>
      match get_dependency_from_member mdoc dep_name with
      | none => .error (.depNotFound dep_name first_user)
      | some dep_item =>
        match entryTable root "workspace" with
        | none => .error (.structuralConflict "workspace")
        | some wsKvs =>
          match entryTable wsKvs "dependencies" with
          | none => .error (.structuralConflict "workspace.dependencies")
          | some depsKvs =>
            .ok (tblInsert "workspace"
                  (.table (tblInsert "dependencies"
                    (.table (tblInsert dep_name dep_item depsKvs)) wsKvs)) root)

/-- The `for user in users` loop of the pass: each member manifest is read,
rewritten and written back to disk immediately; a missing manifest aborts,
leaving the manifests already rewritten on disk. -/
def updateUsers (dep_name : String) :
    List String → List (String × Doc) → List (String × Doc) × Option ConsErr
  | [], members => (members, none)
  | u :: rest, members =>
    match tblGet u members with
    | none => (members, some (.missingMember u))
    | some d =>
      updateUsers dep_name rest
        (tblInsert u (update_member_to_use_workspace d dep_name) members)

/-- The in-flight state of one consolidation pass: the in-memory root
document, the keys of the `workspace_deps` map, and the member manifests on
disk (member rewrites are flushed inside the loop). -/
structure PassState : Type where
  root : Doc
  wsDeps : List String
  members : List (String × Doc)
deriving Repr

/-- The grouping policy of the loop: `if group_all { true } else
{ users.len() >= 2 }` (spec §4.3's `should_hoist`). -/
def should_group (group_all : Bool) (users : List String) : Bool :=
  if group_all then true else decide (2 ≤ users.length)

/-- The body of the `for (dep, users) in dep_usage.iter()` loop of
`workspace.rs::consolidate_dependencies` for one dependency. -/
def processDep (group_all : Bool) (dep : String) (users : List String)
    (st : PassState) : PassState × Option ConsErr :=
  if should_group group_all users then
    let step1 : PassState × Option ConsErr :=
      if st.wsDeps.contains dep then (st, none)
      else
        match add_dependency_to_workspace st.members st.root dep users with
        | .error e => (st, some e)
        | .ok root1 => ({ st with root := root1, wsDeps := dep :: st.wsDeps }, none)
    match step1 with
    | (st1, some e) => (st1, some e)
    | (st1, none) =>
      let r := updateUsers dep users st1.members
      ({ st1 with members := r.1 }, r.2)
  else (st, none)

/-- The dependency loop, stopping at the first error (`?` propagation). -/
def consolidateLoop (group_all : Bool) :
    List (String × List String) → PassState → PassState × Option ConsErr
  | [], st => (st, none)
  | (dep, users) :: rest, st =>
    match processDep group_all dep users st with
    | (st1, none) => consolidateLoop group_all rest st1
    | (st1, some e) => (st1, some e)

/-- The files on disk: the root manifest and the member manifests. -/
structure Disk : Type where
  root : Doc
  members : List (String × Doc)
deriving Repr

/-- Embeds `workspace.rs::consolidate_dependencies` after metadata
acquisition: `order` is the iteration of `dep_usage` (dependency name with
its users in `HashSet` iteration order).  On success the root document is
written at the end; on an error the root file keeps its input content while
the member files keep whatever the loop already flushed. -/
def consolidate (group_all : Bool) (order : List (String × List String))
    (disk : Disk) : Disk × Option ConsErr :=
  let st0 : PassState := ⟨disk.root, get_workspace_dependencies disk.root, disk.members⟩
  match consolidateLoop group_all order st0 with
  | (st, none) => (⟨st.root, st.members⟩, none)
  | (st, some e) => (⟨disk.root, st.members⟩, some e)

/-- The feature list `get_features` extracts from an item, defaulting to
the empty list (an absent list and an empty list feed the merge equally). -/
def itemFeats (e : TomlItem) : List String :=
  (get_features e).getD []

/-- The feature list of an optional existing item. -/
def optFeats (ex : Option TomlItem) : List String :=
  (ex.bind get_features).getD []

/-- Executable strict-ascending check on a string list, used to discharge
sortedness side conditions on concrete data by evaluation. -/
def chainLtb : List String → Bool
  | [] => true
  | [_] => true
  | a :: b :: t => strLtb a b && chainLtb (b :: t)

/-- Applying one item transformation to the three dependency sections of a
document; both member rewriters are instances of this shape. -/
def applySections (h : TomlItem → TomlItem) (d : Doc) : Doc :=
  mapAtKey "dev-dependencies" h
    (mapAtKey "build-dependencies" h (mapAtKey "dependencies" h d))

/-- The key list of a table or inline-table item: a probe whose values are
comparable by evaluation (`Doc` equality itself is not decidable here). -/
def inlineKeys : TomlItem → List String
  | .value (.vInline kvs) => kvs.map Prod.fst
  | .table kvs => kvs.map Prod.fst
  | _ => []

/-- The entry of a dependency section of a member document, as probe. -/
def memberDepEntry (d : Doc) (t dep : String) : Option TomlItem :=
  (tblGet t d).bind fun it => (asTableLikeKvs it).bind fun kvs => tblGet dep kvs

/-- Modelled from the spec (the rewrite predicted by C5 and §4.6 of the
spec, for comparison against the implemented `rewriteEntry`): keep exactly
the member's previously declared features that are not already present in
the shared declaration, omitting the field when that set is empty. -/
def specRewriteEntry (sharedDecl e : TomlItem) : TomlItem :=
  let kept := (sortDedup (itemFeats e)).filter fun f => !(itemFeats sharedDecl).contains f
  if kept.isEmpty then .value (.vInline baseInline)
  else .value (.vInline (baseInline ++ [("features", .vArr (kept.map .vStr))]))

/-- A member declaration of `serde` with the single feature `derive`. -/
def c5mem : TomlItem :=
  .table [("version", .value (.vStr "1.0")), ("features", .value (.vArr [.vStr "derive"]))]

/-- A shared declaration of `serde` that already carries `derive`. -/
def c5shared : TomlItem :=
  .table [("version", .value (.vStr "1.0")), ("features", .value (.vArr [.vStr "derive"]))]

/-- A member document declaring a dependency with an empty `features = []`
array, on which the two member-rewrite implementations disagree. -/
def c10doc : Doc :=
  [("dependencies", .table [("dep1",
    .table [("version", .value (.vStr "1.0")), ("features", .value (.vArr []))])])]

/-- A one-section member document used to instantiate the amended C5. -/
def c5wDoc : Doc := [("dependencies", .table [("dep1", c5mem)])]

/-- A member document is stable for a dependency when its rewrite for that
dependency leaves it unchanged; a member map is stable at a key likewise. -/
def StableFor (m : List (String × Doc)) (u dep : String) : Prop :=
  ∃ d, tblGet u m = some d ∧ update_member_to_use_workspace d dep = d

/-- A member manifest declaring `a = "1.0.0"`. -/
def mDocA : Doc :=
  [("package", .table [("name", .value (.vStr "m"))]),
   ("dependencies", .table [("a", .value (.vStr "1.0.0"))])]

/-- A member manifest declaring `a = "2.0.0"`. -/
def mDocA2 : Doc :=
  [("package", .table [("name", .value (.vStr "m2"))]),
   ("dependencies", .table [("a", .value (.vStr "2.0.0"))])]

/-- A pass state with an empty root and two members using `a`. -/
def c4st : PassState := ⟨[], [], [("m1", mDocA), ("m2", mDocA2)]⟩

/-- A root whose shared table already declares `a` with feature `x`. -/
def c8root : Doc :=
  [("workspace", .table [("dependencies", .table [("a",
    .table [("version", .value (.vStr "1.0")), ("features", .value (.vArr [.vStr "x"]))])])])]

/-- A member declaring `a` with the different feature `y`. -/
def c8mem : Doc :=
  [("dependencies", .table [("a",
    .table [("version", .value (.vStr "1.0")), ("features", .value (.vArr [.vStr "y"]))])])]

/-- State for C8: `a` already hoisted, one member using it. -/
def c8st : PassState := ⟨c8root, ["a"], [("m", c8mem)]⟩

/-- State for C8: `a` already hoisted, two members using it. -/
def c8st2 : PassState := ⟨c8root, ["a"], [("m1", c8mem), ("m2", c8mem)]⟩

/-- A root manifest in which `workspace` is occupied by a scalar. -/
def c9root : Doc := [("workspace", .value (.vStr "oops"))]

/-- The version string of a dependency in the root's shared table: a probe
comparable by evaluation. -/
def rootDepStr (d : Doc) (dep : String) : Option String :=
  (((((tblGet "workspace" d).bind itemAsTable).bind
      fun ws => tblGet "dependencies" ws).bind itemAsTable).bind
    fun deps => (tblGet dep deps).bind fun it => (itemAsValue it).bind valueAsStr)

/-- The root-table probe applied through an `Except` result. -/
def addResultProbe (x : Except ConsErr Doc) (dep : String) : Option String :=
  match x with
  | .ok d => rootDepStr d dep
  | .error _ => none

/-- The key-list probe of one member's dependency entry, through `Option`. -/
def memberProbe (od : Option Doc) : Option (List String) :=
  od.bind fun d => (memberDepEntry d "dependencies" "a").map inlineKeys

/-- The member map in which `m1` declares `a = "1.0.0"` and `m2` declares
`a = "2.0.0"`: the canonical shared declaration depends on which member the
`HashSet` iteration yields first. -/
def c6members : List (String × Doc) := [("m1", mDocA), ("m2", mDocA2)]

/-- A member manifest declaring both `a` and `b`. -/
def mDocAB : Doc :=
  [("dependencies", .table [("a", .value (.vStr "1.0")), ("b", .value (.vStr "1.0"))])]

/-- A workspace with an empty root and two members both using `a` and `b`. -/
def c1disk : Disk := ⟨[], [("m1", mDocAB), ("m2", mDocAB)]⟩

/-- One `HashMap` iteration order of the usage map of `c1disk`. -/
def c1o1 : List (String × List String) := [("a", ["m1", "m2"]), ("b", ["m1", "m2"])]

/-- The other iteration order of the same usage map. -/
def c1o2 : List (String × List String) := [("b", ["m1", "m2"]), ("a", ["m1", "m2"])]

/-- A workspace in which `a` is consolidatable but the usage map also lists
`b` for members whose manifests hold no `b` entry (as happens with renamed
dependencies, where the metadata name differs from the member's table key). -/
def c7disk : Disk := ⟨[], [("m1", mDocA), ("m2", mDocA2), ("m3", mDocA), ("m4", mDocA)]⟩

/-- An iteration order processing `a` before the failing `b`. -/
def c7order : List (String × List String) := [("a", ["m1", "m2"]), ("b", ["m3", "m4"])]

/-- Compatibility of two iterations of the same usage map: every entry of
the second has an entry of the first with the same dependency, the same
usage-set size, and at least the same users. -/
def UsageCompat (o1 o2 : List (String × List String)) : Prop :=
  ∀ p ∈ o2, ∃ q ∈ o1, q.1 = p.1 ∧ q.2.length = p.2.length ∧ ∀ u ∈ p.2, u ∈ q.2

/-- A root whose shared table already declares `a`. -/
def c2root : Doc :=
  [("workspace", .table [("dependencies", .table [("a", .value (.vStr "1.0"))])])]

/-- A member already rewritten to the shared reference for `a`. -/
def c2mem : Doc :=
  [("dependencies", .table [("a", .value (.vInline [("workspace", .vBool true)]))])]

/-- An already-consolidated workspace: a fixed point of the pass. -/
def c2disk : Disk := ⟨c2root, [("m1", c2mem), ("m2", c2mem)]⟩

/-- The single-entry usage map iteration of `c2disk`. -/
def c2order : List (String × List String) := [("a", ["m1", "m2"])]

end CargoConsolidate

namespace CargoConsolidate

theorem charsLtb_iff : ∀ (xs ys : List Char),
    charsLtb xs ys = true ↔ List.Lex (· < ·) xs ys
  | [], [] => by
    simp only [charsLtb, Bool.false_eq_true, false_iff]
    intro h; cases h
  | [], y :: ys => by
    simp only [charsLtb, true_iff]
    exact List.Lex.nil
  | x :: xs, [] => by
    simp only [charsLtb, Bool.false_eq_true, false_iff]
    intro h; cases h
  | x :: xs, y :: ys => by
    by_cases hxy : x < y
    · simp only [charsLtb, if_pos hxy, true_iff]
      exact List.Lex.rel hxy
    · by_cases hyx : y < x
      · simp only [charsLtb, if_neg hxy, if_pos hyx, Bool.false_eq_true, false_iff]
        intro h
        cases h with
        | cons h1 => exact absurd hyx (lt_irrefl _)
        | rel h1 => exact hxy h1
      · have hxe : x = y := le_antisymm (not_lt.mp hyx) (not_lt.mp hxy)
        subst hxe
        simp only [charsLtb, if_neg hxy, if_neg hyx, charsLtb_iff xs ys]
        constructor
        · exact fun h => List.Lex.cons h
        · intro h
          cases h with
          | cons h1 => exact h1
          | rel h1 => exact absurd h1 hxy

@[simp] theorem strLtb_iff (a b : String) : strLtb a b = true ↔ a < b := by
  rw [String.lt_iff_toList_lt]
  exact charsLtb_iff a.toList b.toList

theorem strLtb_eq_false_iff (a b : String) : strLtb a b = false ↔ ¬ a < b := by
  rw [← strLtb_iff]
  cases strLtb a b <;> simp

theorem mem_insertSorted (a x : String) (l : List String) :
    a ∈ insertSorted x l ↔ a = x ∨ a ∈ l := by
  induction l with
  | nil => simp [insertSorted]
  | cons y ys ih =>
    by_cases hxy : x < y
    · have hb : strLtb x y = true := (strLtb_iff x y).mpr hxy
      simp [insertSorted, hb]
    · have hb : strLtb x y = false := (strLtb_eq_false_iff x y).mpr hxy
      by_cases hxe : x = y
      · subst hxe
        simp [insertSorted, hb]
      · simp only [insertSorted, hb, Bool.false_eq_true, if_false, if_neg hxe,
          List.mem_cons, ih]
        tauto

theorem sorted_insertSorted (x : String) (l : List String)
    (h : l.Sorted (· < ·)) : (insertSorted x l).Sorted (· < ·) := by
  induction l with
  | nil => simp [insertSorted]
  | cons y ys ih =>
    rw [List.sorted_cons] at h
    obtain ⟨hy, hys⟩ := h
    by_cases hxy : x < y
    · have hb : strLtb x y = true := (strLtb_iff x y).mpr hxy
      simp only [insertSorted, hb, if_true, List.sorted_cons]
      refine ⟨?_, ?_⟩
      · intro b hb2
        rcases List.mem_cons.mp hb2 with hb2 | hb2
        · exact hb2 ▸ hxy
        · exact lt_trans hxy (hy b hb2)
      · exact ⟨hy, hys⟩
    · have hb : strLtb x y = false := (strLtb_eq_false_iff x y).mpr hxy
      by_cases hxe : x = y
      · subst hxe
        have heq : insertSorted x (x :: ys) = x :: ys := by
          simp [insertSorted, hb]
        rw [heq, List.sorted_cons]
        exact ⟨hy, hys⟩
      · have hyx : y < x := by
          rcases lt_trichotomy x y with h1 | h1 | h1
          · exact absurd h1 hxy
          · exact absurd h1 hxe
          · exact h1
        simp only [insertSorted, hb, Bool.false_eq_true, if_false, if_neg hxe,
          List.sorted_cons]
        refine ⟨?_, ih hys⟩
        intro b hb2
        rcases (mem_insertSorted b x ys).mp hb2 with hb2 | hb2
        · exact hb2 ▸ hyx
        · exact hy b hb2

theorem mem_extendSorted (a : String) (acc xs : List String) :
    a ∈ extendSorted acc xs ↔ a ∈ acc ∨ a ∈ xs := by
  induction xs generalizing acc with
  | nil => simp [extendSorted]
  | cons x rest ih =>
    simp only [extendSorted, List.foldl_cons] at *
    rw [ih (insertSorted x acc), mem_insertSorted]
    simp only [List.mem_cons]
    tauto

theorem sorted_extendSorted (acc xs : List String)
    (h : acc.Sorted (· < ·)) : (extendSorted acc xs).Sorted (· < ·) := by
  induction xs generalizing acc with
  | nil => exact h
  | cons x rest ih =>
    simp only [extendSorted, List.foldl_cons] at *
    exact ih _ (sorted_insertSorted x acc h)

theorem sortDedup_sorted (xs : List String) : (sortDedup xs).Sorted (· < ·) :=
  sorted_extendSorted [] xs (by simp)

theorem mem_sortDedup (a : String) (xs : List String) :
    a ∈ sortDedup xs ↔ a ∈ xs := by
  rw [sortDedup, mem_extendSorted]; simp

theorem sortDedup_nodup (xs : List String) : (sortDedup xs).Nodup :=
  (sortDedup_sorted xs).imp ne_of_lt

theorem extendSorted_append (acc xs ys : List String) :
    extendSorted acc (xs ++ ys) = extendSorted (extendSorted acc xs) ys := by
  simp [extendSorted, List.foldl_append]

theorem insertSorted_append_last (x : String) (acc : List String)
    (h : ∀ y ∈ acc, y < x) : insertSorted x acc = acc ++ [x] := by
  induction acc with
  | nil => simp [insertSorted]
  | cons y ys ih =>
    have hyx : y < x := h y (by simp)
    have h1 : strLtb x y = false := (strLtb_eq_false_iff x y).mpr (asymm hyx)
    have h2 : x ≠ y := (ne_of_lt hyx).symm
    simp only [insertSorted, h1, Bool.false_eq_true, if_false, if_neg h2,
      List.cons_append, List.cons.injEq, true_and]
    exact ih (fun z hz => h z (by simp [hz]))

theorem extendSorted_sorted_id (acc l : List String)
    (h : (acc ++ l).Sorted (· < ·)) : extendSorted acc l = acc ++ l := by
  induction l generalizing acc with
  | nil => simp [extendSorted]
  | cons x rest ih =>
    have hax : ∀ y ∈ acc, y < x := by
      intro y hy
      have := (List.pairwise_append.mp h).2.2 y hy x (by simp)
      exact this
    simp only [extendSorted, List.foldl_cons]
    rw [insertSorted_append_last x acc hax] at *
    have h2 : ((acc ++ [x]) ++ rest).Sorted (· < ·) := by
      simpa using h
    have := ih (acc ++ [x]) h2
    simp only [extendSorted] at this
    rw [this]
    simp

theorem sortDedup_sorted_id (l : List String) (h : l.Sorted (· < ·)) :
    sortDedup l = l := by
  have := extendSorted_sorted_id [] l (by simpa using h)
  simpa [sortDedup] using this

theorem sorted_eq_of_mem_iff : ∀ (l1 l2 : List String),
    l1.Sorted (· < ·) → l2.Sorted (· < ·) → (∀ a, a ∈ l1 ↔ a ∈ l2) → l1 = l2
  | [], [], _, _, _ => rfl
  | [], y :: ys, _, _, hm => by
    exact absurd ((hm y).mpr (by simp)) (by simp)
  | x :: xs, [], _, _, hm => by
    exact absurd ((hm x).mp (by simp)) (by simp)
  | x :: xs, y :: ys, h1, h2, hm => by
    rw [List.sorted_cons] at h1 h2
    have hxy : x = y := by
      rcases List.mem_cons.mp ((hm x).mp (by simp)) with h | h
      · exact h
      · rcases List.mem_cons.mp ((hm y).mpr (by simp)) with h3 | h3
        · exact h3.symm
        · exact absurd (lt_trans (h2.1 x h) (h1.1 y h3)) (lt_irrefl y)
    subst hxy
    have htail : ∀ a, a ∈ xs ↔ a ∈ ys := by
      intro a
      constructor
      · intro ha
        rcases List.mem_cons.mp ((hm a).mp (List.mem_cons_of_mem x ha)) with h | h
        · exact absurd (h ▸ h1.1 a ha) (lt_irrefl x)
        · exact h
      · intro ha
        rcases List.mem_cons.mp ((hm a).mpr (List.mem_cons_of_mem x ha)) with h | h
        · exact absurd (h ▸ h2.1 a ha) (lt_irrefl x)
        · exact h
    rw [sorted_eq_of_mem_iff xs ys h1.2 h2.2 htail]

theorem filterMap_valueAsStr_map (l : List String) :
    (l.map TomlValue.vStr).filterMap valueAsStr = l := by
  induction l with
  | nil => rfl
  | cons x rest ih => simp [valueAsStr, ih]

theorem filterMap_valueAsStr_comp (l : List String) :
    List.filterMap (valueAsStr ∘ TomlValue.vStr) l = l := by
  induction l with
  | nil => rfl
  | cons x rest ih => simp [valueAsStr, ih, Function.comp]

theorem merge_features_eq (ex : Option TomlItem) (nw : TomlItem) :
    merge_features ex nw =
      if (sortDedup (optFeats ex ++ itemFeats nw)).isEmpty then none
      else some (.vArr ((sortDedup (optFeats ex ++ itemFeats nw)).map .vStr)) := by
  have hs : ∀ s : List String, extendSorted s [] = s := fun s => rfl
  rw [sortDedup, extendSorted_append]
  cases ex with
  | none =>
    simp only [merge_features, optFeats, Option.bind, itemFeats]
    cases hg : get_features nw with
    | none => simp [hg, hs, extendSorted]
    | some fs => simp [hg, extendSorted]
  | some e =>
    simp only [merge_features, optFeats, Option.bind, itemFeats]
    cases hge : get_features e with
    | none =>
      cases hg : get_features nw with
      | none => simp [hg, hge, hs, extendSorted]
      | some fs => simp [hg, hge, extendSorted]
    | some fse =>
      cases hg : get_features nw with
      | none => simp [hg, hge, hs, extendSorted]
      | some fs => simp [hg, hge, extendSorted]

/-- C3: `merge_features` returns exactly the deduplicated set union of the
two feature lists, serialized as a sorted sequence of strings, and returns
nothing when the union is empty; merging a feature set with itself yields
the same set, and merging with an empty set yields the non-empty operand
unchanged (as the sorted list it is serialized from). -/
theorem c3_merge_features_union_law :
    (∀ (ex : Option TomlItem) (nw : TomlItem),
        merge_features ex nw =
          if (sortDedup (optFeats ex ++ itemFeats nw)).isEmpty then none
          else some (.vArr ((sortDedup (optFeats ex ++ itemFeats nw)).map .vStr)))
  ∧ (∀ xs : List String,
        (sortDedup xs).Sorted (· < ·) ∧ (sortDedup xs).Nodup
          ∧ ∀ a, a ∈ sortDedup xs ↔ a ∈ xs)
  ∧ (∀ ex : Option TomlItem,
        sortDedup (optFeats ex ++ optFeats ex) = sortDedup (optFeats ex))
  ∧ (∀ (e nw : TomlItem), itemFeats nw = [] → itemFeats e ≠ [] →
        (itemFeats e).Sorted (· < ·) →
        merge_features (some e) nw = some (.vArr ((itemFeats e).map .vStr)))
  ∧ (∀ nw : TomlItem, itemFeats nw ≠ [] → (itemFeats nw).Sorted (· < ·) →
        merge_features none nw = some (.vArr ((itemFeats nw).map .vStr))) := by
  have hne_isEmpty : ∀ l : List String, l ≠ [] → l.isEmpty = false := by
    intro l hl
    cases l with
    | nil => exact absurd rfl hl
    | cons a t => rfl
  refine ⟨merge_features_eq, ?_, ?_, ?_, ?_⟩
  · intro xs
    exact ⟨sortDedup_sorted xs, sortDedup_nodup xs, fun a => mem_sortDedup a xs⟩
  · intro ex
    apply sorted_eq_of_mem_iff _ _ (sortDedup_sorted _) (sortDedup_sorted _)
    intro a
    rw [mem_sortDedup, mem_sortDedup, List.mem_append]
    tauto
  · intro e nw hnw hne hsorted
    rw [merge_features_eq]
    have hopt : optFeats (some e) = itemFeats e := rfl
    rw [hopt, hnw, List.append_nil, sortDedup_sorted_id _ hsorted, hne_isEmpty _ hne]
    simp
  · intro nw hne hsorted
    rw [merge_features_eq]
    have hopt : optFeats none = ([] : List String) := rfl
    rw [hopt, List.nil_append, sortDedup_sorted_id _ hsorted, hne_isEmpty _ hne]
    simp

/-- Lists accepted by the executable ascending check are sorted. -/
theorem sorted_of_chainLtb : ∀ l : List String, chainLtb l = true → l.Sorted (· < ·)
  | [], _ => by simp
  | [a], _ => by simp
  | a :: b :: t, h => by
    have hab : strLtb a b = true ∧ chainLtb (b :: t) = true := by
      simpa [chainLtb, Bool.and_eq_true] using h
    have hs := sorted_of_chainLtb (b :: t) hab.2
    rw [List.sorted_cons]
    refine ⟨?_, hs⟩
    intro y hy
    have hab1 : a < b := (strLtb_iff _ _).mp hab.1
    rcases List.mem_cons.mp hy with rfl | hy
    · exact hab1
    · exact lt_trans hab1 ((List.sorted_cons.mp hs).1 y hy)

/-- Witness for C3, at a declaration with features `["a", "b"]` merged with
the featureless `{ workspace = true }` item. -/
theorem c3_merge_features_union_law_witness :
    merge_features
        (some (.table [("features", TomlItem.value (.vArr [.vStr "a", .vStr "b"]))]))
        (.value (.vInline baseInline)) =
      some (.vArr [.vStr "a", .vStr "b"]) := by
  exact c3_merge_features_union_law.2.2.2.1
    (.table [("features", TomlItem.value (.vArr [.vStr "a", .vStr "b"]))])
    (.value (.vInline baseInline)) (by decide) (by decide)
    (sorted_of_chainLtb _ (by decide))

theorem tblGet_tblInsert {α : Type} (k k1 : String) (v : α) (l : List (String × α)) :
    tblGet k1 (tblInsert k v l) = if k1 = k then some v else tblGet k1 l := by
  induction l with
  | nil =>
    by_cases h : k1 = k
    · subst h; simp [tblInsert, tblGet]
    · have h2 : ¬ k = k1 := fun hh => h hh.symm
      simp [tblInsert, tblGet, h, h2]
  | cons p rest ih =>
    obtain ⟨k2, v2⟩ := p
    by_cases h2 : k2 = k
    · subst h2
      by_cases h1 : k1 = k2
      · subst h1; simp [tblInsert, tblGet]
      · have h3 : ¬ k2 = k1 := fun hh => h1 hh.symm
        simp [tblInsert, tblGet, h1, h3]
    · by_cases h1 : k2 = k1
      · subst h1
        simp [tblInsert, tblGet, h2]
      · simp [tblInsert, tblGet, h2, h1, ih]

theorem tblInsert_self {α : Type} (k : String) (v : α) (l : List (String × α))
    (h : tblGet k l = some v) : tblInsert k v l = l := by
  induction l with
  | nil => simp [tblGet] at h
  | cons p rest ih =>
    obtain ⟨k2, v2⟩ := p
    by_cases h2 : k2 = k
    · subst h2
      rw [tblGet, if_pos rfl] at h
      have hv : v2 = v := Option.some.inj h
      subst hv
      simp [tblInsert]
    · rw [tblGet, if_neg h2] at h
      simp [tblInsert, h2, ih h]

theorem tblGet_mapAtKey {α : Type} (k k1 : String) (f : α → α) (l : List (String × α)) :
    tblGet k1 (mapAtKey k f l) = if k1 = k then (tblGet k1 l).map f else tblGet k1 l := by
  induction l with
  | nil => by_cases h : k1 = k <;> simp [mapAtKey, tblGet, h]
  | cons p rest ih =>
    obtain ⟨k2, v2⟩ := p
    by_cases h2 : k2 = k
    · subst h2
      by_cases h1 : k1 = k2
      · subst h1
        simp [mapAtKey, tblGet]
      · have h3 : ¬ k2 = k1 := fun hh => h1 hh.symm
        simp [mapAtKey, tblGet, h1, h3, ih]
    · by_cases h1 : k2 = k1
      · subst h1
        simp [mapAtKey, tblGet, h2]
      · simp [mapAtKey, tblGet, h2, h1, ih]

theorem mapAtKey_comp {α : Type} (k : String) (f g : α → α) (l : List (String × α)) :
    mapAtKey k f (mapAtKey k g l) = mapAtKey k (fun v => f (g v)) l := by
  induction l with
  | nil => rfl
  | cons p rest ih =>
    obtain ⟨k2, v2⟩ := p
    by_cases h2 : k2 = k <;> simp [mapAtKey, h2, ih]

theorem mapAtKey_comm {α : Type} (k k1 : String) (hk : k ≠ k1) (f g : α → α)
    (l : List (String × α)) :
    mapAtKey k f (mapAtKey k1 g l) = mapAtKey k1 g (mapAtKey k f l) := by
  induction l with
  | nil => rfl
  | cons p rest ih =>
    obtain ⟨k2, v2⟩ := p
    by_cases h2 : k2 = k
    · subst h2
      have h1 : ¬ k2 = k1 := hk
      simp [mapAtKey, h1, ih]
    · by_cases h1 : k2 = k1
      · subst h1
        simp [mapAtKey, h2, ih]
      · simp [mapAtKey, h2, h1, ih]

theorem mapAtKey_congr {α : Type} (k : String) (f g : α → α) (l : List (String × α))
    (h : ∀ v, f v = g v) : mapAtKey k f l = mapAtKey k g l := by
  have hf : f = g := funext h
  rw [hf]

theorem mapAtKey_absent {α : Type} (k : String) (f : α → α) (l : List (String × α))
    (h : tblGet k l = none) : mapAtKey k f l = l := by
  induction l with
  | nil => rfl
  | cons p rest ih =>
    obtain ⟨k2, v2⟩ := p
    by_cases h2 : k2 = k
    · subst h2
      simp [tblGet] at h
    · simp only [tblGet, if_neg h2] at h
      simp [mapAtKey, h2, ih h]

theorem isEmpty_eq_false_of_ne_nil {α : Type} (l : List α) (h : l ≠ []) :
    l.isEmpty = false := by
  cases l with
  | nil => exact absurd rfl h
  | cons a t => rfl

theorem sortDedup_ne_nil (l : List String) (h : l ≠ []) : sortDedup l ≠ [] := by
  cases l with
  | nil => exact absurd rfl h
  | cons a t =>
    intro hh
    have hmem := (mem_sortDedup a (a :: t)).mpr (by simp)
    rw [hh] at hmem
    cases hmem

theorem update_member_eq (doc : Doc) (dep : String) :
    update_member_to_use_workspace doc dep = applySections (sectionF dep) doc := rfl

theorem update_member_main_eq (doc : Doc) (dep : String) :
    update_member_main doc dep = applySections (sectionFMain dep) doc := rfl

theorem applySections_congr (f g : TomlItem → TomlItem) (h : ∀ it, f it = g it)
    (d : Doc) : applySections f d = applySections g d := by
  have hfg : f = g := funext h
  rw [hfg]

theorem applySections_comp (f g : TomlItem → TomlItem) (d : Doc) :
    applySections f (applySections g d) = applySections (fun it => f (g it)) d := by
  unfold applySections
  rw [mapAtKey_comm "dependencies" "dev-dependencies" (by decide) f g,
      mapAtKey_comm "dependencies" "build-dependencies" (by decide) f g,
      mapAtKey_comm "build-dependencies" "dev-dependencies" (by decide) f g,
      mapAtKey_comp, mapAtKey_comp, mapAtKey_comp]

theorem rewriteEntry_eq (e : TomlItem) :
    rewriteEntry e =
      if (itemFeats e).isEmpty then .value (.vInline baseInline)
      else .value (.vInline (baseInline ++
        [("features", .vArr ((sortDedup (itemFeats e)).map .vStr))])) := by
  unfold rewriteEntry
  rw [merge_features_eq]
  have h1 : itemFeats (TomlItem.value (.vInline baseInline)) = [] := rfl
  have h2 : optFeats (some e) = itemFeats e := rfl
  rw [h1, h2, List.append_nil]
  by_cases he : itemFeats e = []
  · rw [he]
    simp [sortDedup, extendSorted]
  · rw [isEmpty_eq_false_of_ne_nil _ he, isEmpty_eq_false_of_ne_nil _ (sortDedup_ne_nil _ he)]
    simp

theorem itemFeats_rewriteEntry (e : TomlItem) :
    itemFeats (rewriteEntry e) = sortDedup (itemFeats e) := by
  rw [rewriteEntry_eq]
  by_cases he : itemFeats e = []
  · rw [he]
    simp [itemFeats, get_features, asTableLikeKvs, baseInline, tblGet, sortDedup, extendSorted]
  · rw [isEmpty_eq_false_of_ne_nil _ he]
    simp only [Bool.false_eq_true, if_false]
    simp [itemFeats, get_features, asTableLikeKvs, baseInline, tblGet, itemAsValue,
      filterMap_valueAsStr_map, filterMap_valueAsStr_comp]

theorem rewriteEntry_idem (e : TomlItem) :
    rewriteEntry (rewriteEntry e) = rewriteEntry e := by
  rw [rewriteEntry_eq (rewriteEntry e), itemFeats_rewriteEntry]
  by_cases he : itemFeats e = []
  · rw [he, rewriteEntry_eq e, he]
    simp [sortDedup, extendSorted]
  · rw [isEmpty_eq_false_of_ne_nil _ (sortDedup_ne_nil _ he),
      sortDedup_sorted_id _ (sortDedup_sorted _),
      rewriteEntry_eq e, isEmpty_eq_false_of_ne_nil _ he]

theorem rewriteEntry_isValue (e : TomlItem) : ∃ v, rewriteEntry e = .value v := by
  rw [rewriteEntry_eq]
  by_cases he : (itemFeats e).isEmpty
  · rw [if_pos he]; exact ⟨_, rfl⟩
  · rw [if_neg he]; exact ⟨_, rfl⟩

theorem value_rewriteEntryVal (v : TomlValue) :
    rewriteEntry (.value v) = .value (rewriteEntryVal v) := by
  obtain ⟨v1, hv⟩ := rewriteEntry_isValue (.value v)
  unfold rewriteEntryVal
  rw [hv]

theorem rewriteEntryVal_idem (v : TomlValue) :
    rewriteEntryVal (rewriteEntryVal v) = rewriteEntryVal v := by
  have h3 : TomlItem.value (rewriteEntryVal (rewriteEntryVal v)) =
      TomlItem.value (rewriteEntryVal v) := by
    rw [← value_rewriteEntryVal, ← value_rewriteEntryVal, rewriteEntry_idem,
      value_rewriteEntryVal]
  injection h3

theorem sectionF_idem (dep : String) (it : TomlItem) :
    sectionF dep (sectionF dep it) = sectionF dep it := by
  cases it with
  | itNone => rfl
  | table kvs =>
    simp only [sectionF]
    rw [mapAtKey_comp]
    exact congrArg TomlItem.table
      (mapAtKey_congr dep _ _ kvs fun v => rewriteEntry_idem v)
  | value v =>
    cases v with
    | vInline kvs =>
      simp only [sectionF]
      rw [mapAtKey_comp]
      exact congrArg (fun x => TomlItem.value (TomlValue.vInline x))
        (mapAtKey_congr dep _ _ kvs fun v => rewriteEntryVal_idem v)
    | vStr s => rfl
    | vBool b => rfl
    | vInt n => rfl
    | vArr xs => rfl

theorem sectionF_comm (a b : String) (it : TomlItem) :
    sectionF a (sectionF b it) = sectionF b (sectionF a it) := by
  by_cases hab : a = b
  · rw [hab]
  · cases it with
    | itNone => rfl
    | table kvs =>
      simp only [sectionF]
      rw [mapAtKey_comm a b hab]
    | value v =>
      cases v with
      | vInline kvs =>
        simp only [sectionF]
        rw [mapAtKey_comm a b hab]
      | vStr s => rfl
      | vBool b => rfl
      | vInt n => rfl
      | vArr xs => rfl

theorem update_member_idem (d : Doc) (dep : String) :
    update_member_to_use_workspace (update_member_to_use_workspace d dep) dep =
      update_member_to_use_workspace d dep := by
  rw [update_member_eq, update_member_eq, applySections_comp]
  exact applySections_congr _ _ (fun it => sectionF_idem dep it) d

theorem update_member_comm (d : Doc) (a b : String) :
    update_member_to_use_workspace (update_member_to_use_workspace d a) b =
      update_member_to_use_workspace (update_member_to_use_workspace d b) a := by
  rw [update_member_eq, update_member_eq, update_member_eq, update_member_eq,
    applySections_comp, applySections_comp]
  exact applySections_congr _ _ (fun it => sectionF_comm b a it) d

/-- C5 counterexample: a member declaring `serde` with feature `derive`
while the shared declaration already carries `derive`.  The claim predicts
the features field is omitted (the member's features minus the shared ones
is empty); the code keeps the member's full feature list and never consults
the shared declaration. -/
theorem c5_counterexample :
    rewriteEntry c5mem =
      .value (.vInline [("workspace", .vBool true), ("features", .vArr [.vStr "derive"])])
  ∧ specRewriteEntry c5shared c5mem = .value (.vInline [("workspace", .vBool true)])
  ∧ inlineKeys (rewriteEntry c5mem) ≠ inlineKeys (specRewriteEntry c5shared c5mem) := by
  refine ⟨rfl, rfl, by decide⟩

/-- C5 (amended): the member rewrite replaces the entry in each of the
three dependency sections containing it with a declaration whose
`workspace = true` marker is set and whose feature list is exactly the
member's own previously declared features, deduplicated and sorted —
independent of the shared declaration — the field being omitted when the
member declared no features; all other member-local fields (version,
optional flag, renaming) are dropped, as the explicit inline form shows. -/
theorem c5_member_rewrite_amended (doc : Doc) (dep t : String)
    (kvs : List (String × TomlItem)) (e : TomlItem)
    (ht : t ∈ dep_tables)
    (h1 : tblGet t doc = some (.table kvs))
    (h2 : tblGet dep kvs = some e) :
    tblGet t (update_member_to_use_workspace doc dep) =
      some (.table (mapAtKey dep rewriteEntry kvs))
  ∧ tblGet dep (mapAtKey dep rewriteEntry kvs) = some (rewriteEntry e)
  ∧ rewriteEntry e =
      (if (itemFeats e).isEmpty then .value (.vInline baseInline)
       else .value (.vInline (baseInline ++
         [("features", .vArr ((sortDedup (itemFeats e)).map .vStr))]))) := by
  refine ⟨?_, ?_, rewriteEntry_eq e⟩
  · rw [update_member_eq]
    unfold applySections
    have habc : t = "dependencies" ∨ t = "build-dependencies" ∨ t = "dev-dependencies" := by
      simpa [dep_tables] using ht
    rcases habc with rfl | rfl | rfl
    · rw [tblGet_mapAtKey, if_neg (by decide), tblGet_mapAtKey, if_neg (by decide),
        tblGet_mapAtKey, if_pos rfl, h1]
      rfl
    · rw [tblGet_mapAtKey, if_neg (by decide), tblGet_mapAtKey, if_pos rfl,
        tblGet_mapAtKey, if_neg (by decide), h1]
      rfl
    · rw [tblGet_mapAtKey, if_pos rfl, tblGet_mapAtKey, if_neg (by decide),
        tblGet_mapAtKey, if_neg (by decide), h1]
      rfl
  · rw [tblGet_mapAtKey, if_pos rfl, h2]
    rfl

/-- Witness for the amended C5, on a concrete one-section member. -/
theorem c5_member_rewrite_amended_witness :
    tblGet "dependencies" (update_member_to_use_workspace c5wDoc "dep1") =
      some (.table (mapAtKey "dep1" rewriteEntry [("dep1", c5mem)])) :=
  (c5_member_rewrite_amended c5wDoc "dep1" "dependencies" [("dep1", c5mem)] c5mem
    (by decide) rfl rfl).1

/-- C10 counterexample: on a member whose entry carries `features = []`,
the `main.rs` rewriter keeps the empty array verbatim while the
`workspace.rs` rewriter omits the field, so the two rewritten documents
differ (witnessed through the key-list probe). -/
theorem c10_counterexample :
    (memberDepEntry (update_member_main c10doc "dep1") "dependencies" "dep1").map inlineKeys ≠
      (memberDepEntry (update_member_to_use_workspace c10doc "dep1") "dependencies" "dep1").map
        inlineKeys
  ∧ update_member_main c10doc "dep1" ≠ update_member_to_use_workspace c10doc "dep1" := by
  have hk : (memberDepEntry (update_member_main c10doc "dep1") "dependencies" "dep1").map
        inlineKeys ≠
      (memberDepEntry (update_member_to_use_workspace c10doc "dep1") "dependencies" "dep1").map
        inlineKeys := by decide
  exact ⟨hk, fun h => hk (by rw [h])⟩

/-- C10 (amended): the two member-rewrite implementations agree on an entry
exactly when its features value is absent, and also whenever it is a
nonempty, strictly sorted, duplicate-free array of strings; in general they
differ, `main.rs` copying the value verbatim and `workspace.rs` sorting,
deduplicating, filtering to strings and omitting empty lists. -/
theorem c10_rewriters_agreement_amended :
    (∀ e : TomlItem, featValOf e = none → rewriteEntryMain e = rewriteEntry e)
  ∧ (∀ (e : TomlItem) (strs : List String),
        featValOf e = some (.vArr (strs.map .vStr)) → strs ≠ [] →
        strs.Sorted (· < ·) → rewriteEntryMain e = rewriteEntry e) := by
  have hgf : ∀ e : TomlItem, get_features e =
      (featValOf e).bind (fun fv => match fv with
        | .vArr xs => some (xs.filterMap valueAsStr)
        | _ => none) := by
    intro e
    cases h1 : asTableLikeKvs e with
    | none => simp [get_features, featValOf, h1]
    | some tbl =>
      cases h2 : tblGet "features" tbl with
      | none => simp [get_features, featValOf, h1, h2]
      | some fi =>
        cases h3 : itemAsValue fi with
        | none => simp [get_features, featValOf, h1, h2, h3]
        | some fv => simp [get_features, featValOf, h1, h2, h3]
  constructor
  · intro e h
    have hg : get_features e = none := by rw [hgf e, h]; rfl
    have hif : itemFeats e = [] := by simp [itemFeats, hg]
    rw [rewriteEntry_eq, hif]
    simp [rewriteEntryMain, h]
  · intro e strs h hne hsorted
    have hg : get_features e = some strs := by
      rw [hgf e, h]
      simp [filterMap_valueAsStr_map, filterMap_valueAsStr_comp]
    have hif : itemFeats e = strs := by simp [itemFeats, hg]
    rw [rewriteEntry_eq, hif, isEmpty_eq_false_of_ne_nil _ hne]
    simp only [Bool.false_eq_true, if_false]
    rw [sortDedup_sorted_id _ hsorted]
    simp [rewriteEntryMain, h]

/-- Witness for the amended C10, on an entry with sorted features. -/
theorem c10_rewriters_agreement_amended_witness :
    rewriteEntryMain (.table [("features", TomlItem.value (.vArr [.vStr "a", .vStr "b"]))]) =
      rewriteEntry (.table [("features", TomlItem.value (.vArr [.vStr "a", .vStr "b"]))]) :=
  c10_rewriters_agreement_amended.2 _ ["a", "b"] rfl (by decide)
    (sorted_of_chainLtb _ (by decide))

theorem contains_iff (l : List String) (x : String) : l.contains x = true ↔ x ∈ l := by
  induction l with
  | nil => simp
  | cons a rest ih =>
    simp [List.contains_cons, ih, Bool.or_eq_true, beq_iff_eq]

theorem mem_keys_iff_get {α : Type} (x : String) (l : List (String × α)) :
    x ∈ l.map Prod.fst ↔ (tblGet x l).isSome = true := by
  induction l with
  | nil => simp [tblGet]
  | cons p rest ih =>
    obtain ⟨k2, v2⟩ := p
    by_cases h2 : k2 = x
    · subst h2
      simp [tblGet]
    · have h3 : ¬ x = k2 := fun hh => h2 hh.symm
      simp [tblGet, h2, h3, ih]

theorem mem_keys_tblInsert_iff {α : Type} (k x : String) (v : α) (l : List (String × α)) :
    x ∈ (tblInsert k v l).map Prod.fst ↔ x = k ∨ x ∈ l.map Prod.fst := by
  rw [mem_keys_iff_get, tblGet_tblInsert, mem_keys_iff_get]
  by_cases h : x = k <;> simp [h]

theorem add_ok_elim (members : List (String × Doc)) (root : Doc) (dep : String)
    (users : List String) (root1 : Doc)
    (h : add_dependency_to_workspace members root dep users = .ok root1) :
    ∃ u mdoc depItem wsKvs depsKvs,
      users.head? = some u ∧ tblGet u members = some mdoc ∧
      get_dependency_from_member mdoc dep = some depItem ∧
      entryTable root "workspace" = some wsKvs ∧
      entryTable wsKvs "dependencies" = some depsKvs ∧
      root1 = tblInsert "workspace" (.table (tblInsert "dependencies"
        (.table (tblInsert dep depItem depsKvs)) wsKvs)) root := by
  unfold add_dependency_to_workspace at h
  split at h
  next => exact absurd h (by simp)
  next u heq1 =>
    split at h
    next => exact absurd h (by simp)
    next mdoc heq2 =>
      split at h
      next => exact absurd h (by simp)
      next depItem heq3 =>
        split at h
        next => exact absurd h (by simp)
        next wsKvs heq4 =>
          split at h
          next => exact absurd h (by simp)
          next depsKvs heq5 =>
            exact ⟨u, mdoc, depItem, wsKvs, depsKvs, heq1, heq2, heq3, heq4, heq5,
              (Except.ok.inj h).symm⟩

theorem add_ok_ws_mem (members : List (String × Doc)) (root : Doc) (dep : String)
    (users : List String) (root1 : Doc)
    (h : add_dependency_to_workspace members root dep users = .ok root1) :
    dep ∈ get_workspace_dependencies root1
  ∧ ∀ x ∈ get_workspace_dependencies root, x ∈ get_workspace_dependencies root1 := by
  obtain ⟨u, mdoc, depItem, wsKvs, depsKvs, h1, h2, h3, h4, h5, h6⟩ :=
    add_ok_elim members root dep users root1 h
  have hroot1 : get_workspace_dependencies root1 =
      (tblInsert dep depItem depsKvs).map Prod.fst := by
    rw [h6]
    unfold get_workspace_dependencies
    rw [tblGet_tblInsert, if_pos rfl]
    simp [itemAsTable, tblGet_tblInsert]
  constructor
  · rw [hroot1, mem_keys_tblInsert_iff]
    exact Or.inl rfl
  · intro x hx
    rw [hroot1, mem_keys_tblInsert_iff]
    right
    unfold get_workspace_dependencies at hx
    unfold entryTable at h4 h5
    cases hws : tblGet "workspace" root with
    | none => rw [hws] at hx; simp at hx
    | some w =>
      rw [hws] at hx h4
      cases w with
      | table ws =>
        simp only [Option.some.injEq] at h4
        simp only [Option.some_bind, itemAsTable] at hx
        cases hwd : tblGet "dependencies" ws with
        | none =>
          rw [hwd] at hx
          simp [itemAsTable] at hx
        | some wd =>
          rw [hwd] at hx
          rw [← h4] at h5
          rw [hwd] at h5
          cases wd with
          | table deps =>
            simp only [Option.some.injEq] at h5
            rw [← h5]
            simpa [itemAsTable] using hx
          | itNone => simp [itemAsTable] at hx
          | value v => simp [itemAsTable] at hx
      | itNone => simp [itemAsTable] at hx
      | value v => simp [itemAsTable] at hx

theorem processDep_not_grouped (g : Bool) (dep : String) (users : List String)
    (st : PassState) (h : should_group g users = false) :
    processDep g dep users st = (st, none) := by
  unfold processDep
  rw [h]
  rfl

theorem processDep_grouped_present (g : Bool) (dep : String) (users : List String)
    (st : PassState) (h1 : should_group g users = true)
    (h2 : st.wsDeps.contains dep = true) :
    processDep g dep users st =
      ({ st with members := (updateUsers dep users st.members).1 },
       (updateUsers dep users st.members).2) := by
  unfold processDep
  rw [h1, h2]
  rfl

theorem processDep_grouped_absent_ok (g : Bool) (dep : String) (users : List String)
    (st : PassState) (root1 : Doc) (h1 : should_group g users = true)
    (h2 : st.wsDeps.contains dep = false)
    (h3 : add_dependency_to_workspace st.members st.root dep users = .ok root1) :
    processDep g dep users st =
      (⟨root1, dep :: st.wsDeps, (updateUsers dep users st.members).1⟩,
       (updateUsers dep users st.members).2) := by
  unfold processDep
  rw [h1, h2, h3]
  rfl

theorem processDep_grouped_absent_err (g : Bool) (dep : String) (users : List String)
    (st : PassState) (err : ConsErr) (h1 : should_group g users = true)
    (h2 : st.wsDeps.contains dep = false)
    (h3 : add_dependency_to_workspace st.members st.root dep users = .error err) :
    processDep g dep users st = (st, some err) := by
  unfold processDep
  rw [h1, h2, h3]
  rfl

theorem updateUsers_nil (dep : String) (m : List (String × Doc)) :
    updateUsers dep [] m = (m, none) := rfl

theorem updateUsers_cons_none (dep u1 : String) (rest : List String)
    (m : List (String × Doc)) (h : tblGet u1 m = none) :
    updateUsers dep (u1 :: rest) m = (m, some (.missingMember u1)) := by
  unfold updateUsers
  rw [h]

theorem updateUsers_cons_some (dep u1 : String) (rest : List String)
    (m : List (String × Doc)) (d1 : Doc) (h : tblGet u1 m = some d1) :
    updateUsers dep (u1 :: rest) m =
      updateUsers dep rest (tblInsert u1 (update_member_to_use_workspace d1 dep) m) := by
  conv_lhs => rw [updateUsers]
  rw [h]

theorem updateUsers_fst_stable (dep2 : String) (us : List String)
    (m : List (String × Doc)) (u dep : String)
    (h : StableFor m u dep) : StableFor (updateUsers dep2 us m).1 u dep := by
  induction us generalizing m with
  | nil => exact h
  | cons u1 rest ih =>
    cases h1 : tblGet u1 m with
    | none =>
      rw [updateUsers_cons_none dep2 u1 rest m h1]
      exact h
    | some d1 =>
      rw [updateUsers_cons_some dep2 u1 rest m d1 h1]
      apply ih
      obtain ⟨d, hd, hfix⟩ := h
      by_cases he : u = u1
      · subst he
        have hdd : d = d1 := by
          rw [hd] at h1
          exact Option.some.inj h1
        subst hdd
        refine ⟨update_member_to_use_workspace d dep2, ?_, ?_⟩
        · rw [tblGet_tblInsert, if_pos rfl]
        · rw [update_member_comm, hfix]
      · refine ⟨d, ?_, hfix⟩
        rw [tblGet_tblInsert, if_neg he, hd]

theorem updateUsers_none_stable (dep : String) (us : List String)
    (m : List (String × Doc)) (hsucc : (updateUsers dep us m).2 = none) :
    ∀ u ∈ us, StableFor (updateUsers dep us m).1 u dep := by
  induction us generalizing m with
  | nil => intro u hu; cases hu
  | cons u1 rest ih =>
    intro u hu
    cases h1 : tblGet u1 m with
    | none =>
      rw [updateUsers_cons_none dep u1 rest m h1] at hsucc
      exact absurd hsucc (by simp)
    | some d1 =>
      rw [updateUsers_cons_some dep u1 rest m d1 h1] at hsucc ⊢
      rcases List.mem_cons.mp hu with rfl | hu2
      · apply updateUsers_fst_stable
        refine ⟨update_member_to_use_workspace d1 dep, ?_, update_member_idem d1 dep⟩
        rw [tblGet_tblInsert, if_pos rfl]
      · exact ih _ hsucc u hu2

theorem updateUsers_id (dep : String) (us : List String) (m : List (String × Doc))
    (h : ∀ u ∈ us, StableFor m u dep) : updateUsers dep us m = (m, none) := by
  induction us generalizing m with
  | nil => rfl
  | cons u1 rest ih =>
    obtain ⟨d, hd, hfix⟩ := h u1 (by simp)
    rw [updateUsers_cons_some dep u1 rest m d hd]
    have hins : tblInsert u1 (update_member_to_use_workspace d dep) m = m := by
      rw [hfix]
      exact tblInsert_self u1 d m hd
    rw [hins]
    exact ih m (fun u hu => h u (by simp [hu]))

theorem updateUsers_untouched (dep : String) (us : List String)
    (m : List (String × Doc)) (u : String) (h : u ∉ us) :
    tblGet u (updateUsers dep us m).1 = tblGet u m := by
  induction us generalizing m with
  | nil => rfl
  | cons u1 rest ih =>
    have hne : u ≠ u1 := fun hh => h (by simp [hh])
    cases h1 : tblGet u1 m with
    | none => rw [updateUsers_cons_none dep u1 rest m h1]
    | some d1 =>
      rw [updateUsers_cons_some dep u1 rest m d1 h1]
      rw [ih _ (fun hh => h (by simp [hh]))]
      rw [tblGet_tblInsert, if_neg hne]

theorem updateUsers_lookup (dep : String) (us : List String) (m : List (String × Doc))
    (hnd : us.Nodup) (hsucc : (updateUsers dep us m).2 = none) :
    ∀ u ∈ us, ∃ d, tblGet u m = some d ∧
      tblGet u (updateUsers dep us m).1 =
        some (update_member_to_use_workspace d dep) := by
  induction us generalizing m with
  | nil => intro u hu; cases hu
  | cons u1 rest ih =>
    have hnd2 := List.nodup_cons.mp hnd
    intro u hu
    cases h1 : tblGet u1 m with
    | none =>
      rw [updateUsers_cons_none dep u1 rest m h1] at hsucc
      exact absurd hsucc (by simp)
    | some d1 =>
      rw [updateUsers_cons_some dep u1 rest m d1 h1] at hsucc ⊢
      rcases List.mem_cons.mp hu with rfl | hu2
      · refine ⟨d1, h1, ?_⟩
        rw [updateUsers_untouched dep rest _ u hnd2.1]
        rw [tblGet_tblInsert, if_pos rfl]
      · obtain ⟨d, hd, hres⟩ := ih _ hnd2.2 hsucc u hu2
        have hne : u ≠ u1 := fun hh => hnd2.1 (hh ▸ hu2)
        rw [tblGet_tblInsert, if_neg hne] at hd
        exact ⟨d, hd, hres⟩

/-- C4: for a dependency not already present in the shared table, a
successfully processed loop iteration hoists it into the root's
`workspace.dependencies` exactly when the group-all flag is set or its
usage set has at least two members; with the flag unset, a dependency used
by exactly one member is left untouched (state unchanged, no error,
absent from the shared table). -/
theorem c4_hoist_policy (g : Bool) (dep : String) (users : List String)
    (st st1 : PassState) (e? : Option ConsErr)
    (hnd : users.Nodup)
    (habs : dep ∉ st.wsDeps)
    (habs2 : dep ∉ get_workspace_dependencies st.root)
    (hrun : processDep g dep users st = (st1, e?)) :
    (e? = none →
      (dep ∈ get_workspace_dependencies st1.root ↔ (g = true ∨ 2 ≤ users.length)))
  ∧ (g = false → users.length = 1 → st1 = st ∧ e? = none) := by
  have hcont : st.wsDeps.contains dep = false := by
    cases hc : st.wsDeps.contains dep
    · rfl
    · exact absurd ((contains_iff _ _).mp hc) habs
  by_cases hsg : should_group g users = true
  · cases hadd : add_dependency_to_workspace st.members st.root dep users with
    | error err =>
      rw [processDep_grouped_absent_err g dep users st err hsg hcont hadd] at hrun
      obtain ⟨h1, h2⟩ := Prod.mk.inj hrun
      constructor
      · intro hnone
        rw [← h2] at hnone
        exact absurd hnone (by simp)
      · intro hg hlen
        exfalso
        simp [should_group, hg, hlen] at hsg
    | ok root1 =>
      rw [processDep_grouped_absent_ok g dep users st root1 hsg hcont hadd] at hrun
      obtain ⟨h1, h2⟩ := Prod.mk.inj hrun
      constructor
      · intro _
        rw [← h1]
        constructor
        · intro _
          cases g with
          | true => exact Or.inl rfl
          | false =>
            right
            simpa [should_group] using hsg
        · intro _
          exact (add_ok_ws_mem st.members st.root dep users root1 hadd).1
      · intro hg hlen
        exfalso
        simp [should_group, hg, hlen] at hsg
  · have hsgf : should_group g users = false := by
      cases h : should_group g users
      · rfl
      · exact absurd h hsg
    rw [processDep_not_grouped g dep users st hsgf] at hrun
    obtain ⟨h1, h2⟩ := Prod.mk.inj hrun
    constructor
    · intro _
      rw [← h1]
      constructor
      · intro hmem
        exact absurd hmem habs2
      · intro hor
        exfalso
        rcases hor with hg | hlen
        · simp [should_group, hg] at hsgf
        · simp [should_group, hlen] at hsgf

    · intro hg hlen
      exact ⟨h1.symm, h2.symm⟩

/-- Witness for C4: with the flag unset, `a` used by two members is hoisted
with no error; used by one member only, the state is untouched. -/
theorem c4_hoist_policy_witness :
    "a" ∈ get_workspace_dependencies (processDep false "a" ["m1", "m2"] c4st).1.root
  ∧ (processDep false "a" ["m1", "m2"] c4st).2 = none
  ∧ processDep false "a" ["m3"] c4st = (c4st, none) := by
  have h := c4_hoist_policy false "a" ["m1", "m2"] c4st
      (processDep false "a" ["m1", "m2"] c4st).1 (processDep false "a" ["m1", "m2"] c4st).2
      (by decide) (by decide) (by decide) rfl
  refine ⟨(h.1 (by rfl)).mpr (Or.inr (by decide)), by rfl, ?_⟩
  have h2 := c4_hoist_policy false "a" ["m3"] c4st
      (processDep false "a" ["m3"] c4st).1 (processDep false "a" ["m3"] c4st).2
      (by decide) (by decide) (by decide) rfl
  obtain ⟨hst, he⟩ := h2.2 rfl rfl
  have heta : processDep false "a" ["m3"] c4st =
      ((processDep false "a" ["m3"] c4st).1, (processDep false "a" ["m3"] c4st).2) := rfl
  rw [heta, hst, he]

/-- C8 counterexample: for `a` already present in the shared table, the
pass does not "still run the merge regardless of the hoisting-policy
outcome": with the flag unset and a single user nothing at all happens
(state returned unchanged), and even with two users the shared declaration
(the root document, still carrying only feature `x`) is never updated. -/
theorem c8_counterexample :
    processDep false "a" ["m"] c8st = (c8st, none)
  ∧ (processDep false "a" ["m1", "m2"] c8st2).1.root = c8st2.root := by
  exact ⟨rfl, rfl⟩

/-- C8 (amended): a dependency already present in the shared table is never
merged into the shared declaration — the root document and the tracked key
set are left unchanged by its loop iteration; when the policy (group-all or
at least two users) declines, nothing happens at all, and when it approves,
each member of the usage set is rewritten in place. -/
theorem c8_already_hoisted_amended (g : Bool) (dep : String) (users : List String)
    (st st1 : PassState) (e? : Option ConsErr)
    (hnd : users.Nodup)
    (hpres : st.wsDeps.contains dep = true)
    (hrun : processDep g dep users st = (st1, e?)) :
    st1.root = st.root ∧ st1.wsDeps = st.wsDeps
  ∧ (should_group g users = false → st1 = st ∧ e? = none)
  ∧ (should_group g users = true → e? = none →
      ∀ u ∈ users, ∃ d, tblGet u st.members = some d ∧
        tblGet u st1.members = some (update_member_to_use_workspace d dep)) := by
  by_cases hsg : should_group g users = true
  · rw [processDep_grouped_present g dep users st hsg hpres] at hrun
    obtain ⟨h1, h2⟩ := Prod.mk.inj hrun
    refine ⟨by rw [← h1], by rw [← h1], ?_, ?_⟩
    · intro hf
      rw [hf] at hsg
      exact absurd hsg (by simp)
    · intro _ hnone u hu
      rw [← h2] at hnone
      obtain ⟨d, hd, hres⟩ := updateUsers_lookup dep users st.members hnd hnone u hu
      refine ⟨d, hd, ?_⟩
      rw [← h1]
      exact hres
  · have hsgf : should_group g users = false := by
      cases h : should_group g users
      · rfl
      · exact absurd h hsg
    rw [processDep_not_grouped g dep users st hsgf] at hrun
    obtain ⟨h1, h2⟩ := Prod.mk.inj hrun
    refine ⟨by rw [← h1], by rw [← h1], fun _ => ⟨h1.symm, h2.symm⟩, ?_⟩
    intro ht
    rw [hsgf] at ht
    exact absurd ht (by simp)

/-- Witness for the amended C8: root untouched, member `m1` rewritten. -/
theorem c8_already_hoisted_amended_witness :
    (processDep false "a" ["m1", "m2"] c8st2).1.root = c8st2.root
  ∧ ∃ d, tblGet "m1" c8st2.members = some d ∧
      tblGet "m1" (processDep false "a" ["m1", "m2"] c8st2).1.members =
        some (update_member_to_use_workspace d "a") := by
  have h := c8_already_hoisted_amended false "a" ["m1", "m2"] c8st2
    (processDep false "a" ["m1", "m2"] c8st2).1 (processDep false "a" ["m1", "m2"] c8st2).2
    (by decide) (by decide) rfl
  exact ⟨h.1, h.2.2.2 (by decide) (by rfl) "m1" (by decide)⟩

/-- C9: when `workspace` (or `workspace.dependencies`) in the root document
is occupied by a non-table item, `add_dependency_to_workspace` never
overwrites it — the only behavior on such an occupied path is the fatal
structural-conflict outcome (the embedding of the `unwrap` panic on
`as_table_mut`), and whenever the pass ends in any error, the root file on
disk keeps its input content. -/
theorem c9_structural_conflict :
    (∀ (members : List (String × Doc)) (root : Doc) (dep : String) (users : List String)
        (u : String) (mdoc : Doc) (depItem w : TomlItem),
      users.head? = some u → tblGet u members = some mdoc →
      get_dependency_from_member mdoc dep = some depItem →
      tblGet "workspace" root = some w → itemIsTable w = false →
        add_dependency_to_workspace members root dep users =
          .error (.structuralConflict "workspace"))
  ∧ (∀ (members : List (String × Doc)) (root : Doc) (dep : String) (users : List String)
        (u : String) (mdoc : Doc) (depItem wd : TomlItem) (ws : List (String × TomlItem)),
      users.head? = some u → tblGet u members = some mdoc →
      get_dependency_from_member mdoc dep = some depItem →
      tblGet "workspace" root = some (.table ws) → tblGet "dependencies" ws = some wd →
      itemIsTable wd = false →
        add_dependency_to_workspace members root dep users =
          .error (.structuralConflict "workspace.dependencies"))
  ∧ (∀ (g : Bool) (order : List (String × List String)) (disk d : Disk) (e : ConsErr),
      consolidate g order disk = (d, some e) → d.root = disk.root) := by
  refine ⟨?_, ?_, ?_⟩
  · intro members root dep users u mdoc depItem w h1 h2 h3 h4 h5
    have he : entryTable root "workspace" = none := by
      unfold entryTable
      rw [h4]
      cases w with
      | table kvs => simp [itemIsTable] at h5
      | itNone => rfl
      | value v => rfl
    simp only [add_dependency_to_workspace, h1, h2, h3, he]
  · intro members root dep users u mdoc depItem wd ws h1 h2 h3 h4 h5 h6
    have he : entryTable root "workspace" = some ws := by
      unfold entryTable
      rw [h4]
    have hd : entryTable ws "dependencies" = none := by
      unfold entryTable
      rw [h5]
      cases wd with
      | table kvs => simp [itemIsTable] at h6
      | itNone => rfl
      | value v => rfl
    simp only [add_dependency_to_workspace, h1, h2, h3, he, hd]
  · intro g order disk d e h
    simp only [consolidate] at h
    cases hl : consolidateLoop g order
        ⟨disk.root, get_workspace_dependencies disk.root, disk.members⟩ with
    | mk st eo =>
      rw [hl] at h
      cases eo with
      | none => simp at h
      | some e1 =>
        simp only [Prod.mk.injEq] at h
        rw [← h.1]

/-- Witness for C9: a root whose `workspace` key holds the scalar `"oops"`
makes the pass fail with the workspace-level structural conflict. -/
theorem c9_structural_conflict_witness :
    add_dependency_to_workspace [("m", mDocA)] c9root "a" ["m"] =
      .error (.structuralConflict "workspace") :=
  c9_structural_conflict.1 [("m", mDocA)] c9root "a" ["m"] "m" mDocA
    (.value (.vStr "1.0.0")) (.value (.vStr "oops")) rfl rfl rfl rfl rfl

theorem consolidateLoop_cons_ok (g : Bool) (dep : String) (users : List String)
    (rest : List (String × List String)) (st st1 : PassState)
    (h : processDep g dep users st = (st1, none)) :
    consolidateLoop g ((dep, users) :: rest) st = consolidateLoop g rest st1 := by
  conv_lhs => rw [consolidateLoop]
  rw [h]

theorem consolidateLoop_cons_err (g : Bool) (dep : String) (users : List String)
    (rest : List (String × List String)) (st st1 : PassState) (e : ConsErr)
    (h : processDep g dep users st = (st1, some e)) :
    consolidateLoop g ((dep, users) :: rest) st = (st1, some e) := by
  conv_lhs => rw [consolidateLoop]
  rw [h]

theorem consolidate_err_root_eq (g : Bool) (order : List (String × List String))
    (disk d : Disk) (e : ConsErr) (h : consolidate g order disk = (d, some e)) :
    d.root = disk.root := by
  simp only [consolidate] at h
  cases hl : consolidateLoop g order
      ⟨disk.root, get_workspace_dependencies disk.root, disk.members⟩ with
  | mk st eo =>
    rw [hl] at h
    cases eo with
    | none => simp at h
    | some e1 =>
      simp only [Prod.mk.injEq] at h
      rw [← h.1]

/-- C6 counterexample evaluation: the canonical declaration inserted on
first hoist is the head of the `HashSet` iteration of the usage set — two
iteration orders of the same set pick different members' declarations and
produce different root documents, so the choice is not made by any
deterministic total order over member identifiers.  The spec (§4.4, §9)
mandates a deterministic order, so this is a defect of the code. -/
theorem c6_first_user_order_dependent :
    List.Perm ["m1", "m2"] ["m2", "m1"]
  ∧ addResultProbe (add_dependency_to_workspace c6members [] "a" ["m1", "m2"]) "a" =
      some "1.0.0"
  ∧ addResultProbe (add_dependency_to_workspace c6members [] "a" ["m2", "m1"]) "a" =
      some "2.0.0"
  ∧ add_dependency_to_workspace c6members [] "a" ["m1", "m2"] ≠
      add_dependency_to_workspace c6members [] "a" ["m2", "m1"] := by
  refine ⟨List.Perm.swap "m2" "m1" [], rfl, rfl, ?_⟩
  intro h
  exact absurd (congrArg (fun x => addResultProbe x "a") h) (by decide)

/-- C1 counterexample evaluation: over the same workspace and flag, two
`HashMap` iteration orders of the usage map both succeed but insert the
hoisted dependencies into `workspace.dependencies` in different order, so
the serialized root manifests differ — the output is not independent of
process-internal iteration order.  The spec (§8 determinism, §9) requires
byte-identical output, so this is a defect of the code. -/
theorem c1_output_order_dependent :
    List.Perm c1o1 c1o2
  ∧ (consolidate false c1o1 c1disk).2 = none
  ∧ (consolidate false c1o2 c1disk).2 = none
  ∧ get_workspace_dependencies (consolidate false c1o1 c1disk).1.root = ["a", "b"]
  ∧ get_workspace_dependencies (consolidate false c1o2 c1disk).1.root = ["b", "a"]
  ∧ (consolidate false c1o1 c1disk).1.root ≠ (consolidate false c1o2 c1disk).1.root := by
  refine ⟨List.Perm.swap ("b", ["m1", "m2"]) ("a", ["m1", "m2"]) [], rfl, rfl, rfl, rfl, ?_⟩
  intro h
  exact absurd (congrArg get_workspace_dependencies h) (by decide)

/-- C7 counterexample: processing `a` succeeds and flushes the rewritten
member `m1` to disk; processing `b` then aborts the pass with
`DependencyNotFound` — yet `m1`'s manifest on disk differs from its input
content, so manifests are persisted before the loop has completed. -/
theorem c7_counterexample :
    (consolidate false c7order c7disk).2 = some (.depNotFound "b" "m3")
  ∧ memberProbe (tblGet "m1" (consolidate false c7order c7disk).1.members) ≠
      memberProbe (tblGet "m1" c7disk.members)
  ∧ tblGet "m1" (consolidate false c7order c7disk).1.members ≠ tblGet "m1" c7disk.members := by
  have hp : memberProbe (tblGet "m1" (consolidate false c7order c7disk).1.members) ≠
      memberProbe (tblGet "m1" c7disk.members) := by decide
  exact ⟨rfl, hp, fun h => hp (by rw [h])⟩

/-- C7 (amended): member manifests are persisted incrementally — each
member rewrite is flushed inside the loop, so the state reached by a
successful iteration is carried into the rest of the pass whatever happens
later; only the root manifest is deferred: it is written solely when the
whole loop completes, and on any error the root file keeps its input
content. -/
theorem c7_persistence_amended :
    (∀ (g : Bool) (order : List (String × List String)) (disk d : Disk) (e : ConsErr),
      consolidate g order disk = (d, some e) → d.root = disk.root)
  ∧ (∀ (g : Bool) (dep : String) (users : List String)
        (rest : List (String × List String)) (st st1 : PassState),
      processDep g dep users st = (st1, none) →
      consolidateLoop g ((dep, users) :: rest) st = consolidateLoop g rest st1) := by
  exact ⟨consolidate_err_root_eq, consolidateLoop_cons_ok⟩

/-- Witness for the amended C7: the aborted pass leaves the root as it was. -/
theorem c7_persistence_amended_witness :
    (consolidate false c7order c7disk).1.root = c7disk.root :=
  c7_persistence_amended.1 false c7order c7disk
    (consolidate false c7order c7disk).1 (.depNotFound "b" "m3") (by rfl)

theorem processDep_none_root_mem (g : Bool) (dep : String) (users : List String)
    (st st1 : PassState) (h : processDep g dep users st = (st1, none)) (x : String)
    (hx : x ∈ get_workspace_dependencies st.root) :
    x ∈ get_workspace_dependencies st1.root := by
  by_cases hsg : should_group g users = true
  · cases hc : st.wsDeps.contains dep with
    | true =>
      rw [processDep_grouped_present g dep users st hsg hc] at h
      obtain ⟨h1, _⟩ := Prod.mk.inj h
      rw [← h1]
      exact hx
    | false =>
      cases hadd : add_dependency_to_workspace st.members st.root dep users with
      | error err =>
        rw [processDep_grouped_absent_err g dep users st err hsg hc hadd] at h
        obtain ⟨_, h2⟩ := Prod.mk.inj h
        exact absurd h2 (by simp)
      | ok root1 =>
        rw [processDep_grouped_absent_ok g dep users st root1 hsg hc hadd] at h
        obtain ⟨h1, _⟩ := Prod.mk.inj h
        rw [← h1]
        exact (add_ok_ws_mem st.members st.root dep users root1 hadd).2 x hx
  · have hsgf : should_group g users = false := by
      cases hh : should_group g users
      · rfl
      · exact absurd hh hsg
    rw [processDep_not_grouped g dep users st hsgf] at h
    obtain ⟨h1, _⟩ := Prod.mk.inj h
    rw [← h1]
    exact hx

theorem processDep_none_stable (g : Bool) (dep : String) (users : List String)
    (st st1 : PassState) (h : processDep g dep users st = (st1, none))
    (u dp : String) (hs : StableFor st.members u dp) : StableFor st1.members u dp := by
  by_cases hsg : should_group g users = true
  · cases hc : st.wsDeps.contains dep with
    | true =>
      rw [processDep_grouped_present g dep users st hsg hc] at h
      obtain ⟨h1, _⟩ := Prod.mk.inj h
      rw [← h1]
      exact updateUsers_fst_stable dep users st.members u dp hs
    | false =>
      cases hadd : add_dependency_to_workspace st.members st.root dep users with
      | error err =>
        rw [processDep_grouped_absent_err g dep users st err hsg hc hadd] at h
        obtain ⟨_, h2⟩ := Prod.mk.inj h
        exact absurd h2 (by simp)
      | ok root1 =>
        rw [processDep_grouped_absent_ok g dep users st root1 hsg hc hadd] at h
        obtain ⟨h1, _⟩ := Prod.mk.inj h
        rw [← h1]
        exact updateUsers_fst_stable dep users st.members u dp hs
  · have hsgf : should_group g users = false := by
      cases hh : should_group g users
      · rfl
      · exact absurd hh hsg
    rw [processDep_not_grouped g dep users st hsgf] at h
    obtain ⟨h1, _⟩ := Prod.mk.inj h
    rw [← h1]
    exact hs

theorem processDep_none_wsInv (g : Bool) (dep : String) (users : List String)
    (st st1 : PassState) (h : processDep g dep users st = (st1, none))
    (hw : ∀ x ∈ st.wsDeps, x ∈ get_workspace_dependencies st.root) :
    ∀ x ∈ st1.wsDeps, x ∈ get_workspace_dependencies st1.root := by
  by_cases hsg : should_group g users = true
  · cases hc : st.wsDeps.contains dep with
    | true =>
      rw [processDep_grouped_present g dep users st hsg hc] at h
      obtain ⟨h1, _⟩ := Prod.mk.inj h
      rw [← h1]
      exact hw
    | false =>
      cases hadd : add_dependency_to_workspace st.members st.root dep users with
      | error err =>
        rw [processDep_grouped_absent_err g dep users st err hsg hc hadd] at h
        obtain ⟨_, h2⟩ := Prod.mk.inj h
        exact absurd h2 (by simp)
      | ok root1 =>
        rw [processDep_grouped_absent_ok g dep users st root1 hsg hc hadd] at h
        obtain ⟨h1, _⟩ := Prod.mk.inj h
        rw [← h1]
        intro x hx
        rcases List.mem_cons.mp hx with rfl | hx2
        · exact (add_ok_ws_mem st.members st.root x users root1 hadd).1
        · exact (add_ok_ws_mem st.members st.root dep users root1 hadd).2 x (hw x hx2)
  · have hsgf : should_group g users = false := by
      cases hh : should_group g users
      · rfl
      · exact absurd hh hsg
    rw [processDep_not_grouped g dep users st hsgf] at h
    obtain ⟨h1, _⟩ := Prod.mk.inj h
    rw [← h1]
    exact hw

theorem processDep_establishes (g : Bool) (dep : String) (users : List String)
    (st st1 : PassState) (h : processDep g dep users st = (st1, none))
    (hw : ∀ x ∈ st.wsDeps, x ∈ get_workspace_dependencies st.root)
    (hsg : should_group g users = true) :
    dep ∈ get_workspace_dependencies st1.root
  ∧ ∀ u ∈ users, StableFor st1.members u dep := by
  cases hc : st.wsDeps.contains dep with
  | true =>
    rw [processDep_grouped_present g dep users st hsg hc] at h
    obtain ⟨h1, h2⟩ := Prod.mk.inj h
    constructor
    · rw [← h1]
      exact hw dep ((contains_iff _ _).mp hc)
    · intro u hu
      rw [← h1]
      exact updateUsers_none_stable dep users st.members h2 u hu
  | false =>
    cases hadd : add_dependency_to_workspace st.members st.root dep users with
    | error err =>
      rw [processDep_grouped_absent_err g dep users st err hsg hc hadd] at h
      obtain ⟨_, h2⟩ := Prod.mk.inj h
      exact absurd h2 (by simp)
    | ok root1 =>
      rw [processDep_grouped_absent_ok g dep users st root1 hsg hc hadd] at h
      obtain ⟨h1, h2⟩ := Prod.mk.inj h
      constructor
      · rw [← h1]
        exact (add_ok_ws_mem st.members st.root dep users root1 hadd).1
      · intro u hu
        rw [← h1]
        exact updateUsers_none_stable dep users st.members h2 u hu

theorem consolidateLoop_preserves (g : Bool) (o : List (String × List String))
    (st stF : PassState) (h : consolidateLoop g o st = (stF, none)) :
    (∀ x, x ∈ get_workspace_dependencies st.root → x ∈ get_workspace_dependencies stF.root)
  ∧ (∀ u dp, StableFor st.members u dp → StableFor stF.members u dp) := by
  induction o generalizing st with
  | nil =>
    obtain ⟨h1, _⟩ := Prod.mk.inj h
    rw [← h1]
    exact ⟨fun x hx => hx, fun u dp hs => hs⟩
  | cons q rest ih =>
    obtain ⟨dep, users⟩ := q
    cases hpd : processDep g dep users st with
    | mk st1 eo =>
      cases eo with
      | some e =>
        rw [consolidateLoop_cons_err g dep users rest st st1 e hpd] at h
        obtain ⟨_, h2⟩ := Prod.mk.inj h
        exact absurd h2 (by simp)
      | none =>
        rw [consolidateLoop_cons_ok g dep users rest st st1 hpd] at h
        obtain ⟨ihm, ihs⟩ := ih st1 h
        exact ⟨fun x hx => ihm x (processDep_none_root_mem g dep users st st1 hpd x hx),
               fun u dp hs => ihs u dp (processDep_none_stable g dep users st st1 hpd u dp hs)⟩

theorem consolidateLoop_good (g : Bool) (o : List (String × List String))
    (st stF : PassState) (h : consolidateLoop g o st = (stF, none))
    (hw : ∀ x ∈ st.wsDeps, x ∈ get_workspace_dependencies st.root) :
    ∀ p ∈ o, should_group g p.2 = true →
      p.1 ∈ get_workspace_dependencies stF.root
    ∧ ∀ u ∈ p.2, StableFor stF.members u p.1 := by
  induction o generalizing st with
  | nil =>
    intro p hp
    cases hp
  | cons q rest ih =>
    obtain ⟨dep, users⟩ := q
    cases hpd : processDep g dep users st with
    | mk st1 eo =>
      cases eo with
      | some e =>
        rw [consolidateLoop_cons_err g dep users rest st st1 e hpd] at h
        obtain ⟨_, h2⟩ := Prod.mk.inj h
        exact absurd h2 (by simp)
      | none =>
        rw [consolidateLoop_cons_ok g dep users rest st st1 hpd] at h
        have hw1 := processDep_none_wsInv g dep users st st1 hpd hw
        intro p hp hsgp
        rcases List.mem_cons.mp hp with rfl | hp2
        · obtain ⟨hd, hs⟩ := processDep_establishes g dep users st st1 hpd hw hsgp
          obtain ⟨lm, ls⟩ := consolidateLoop_preserves g rest st1 stF h
          exact ⟨lm _ hd, fun u hu => ls u _ (hs u hu)⟩
        · exact ih st1 h hw1 p hp2 hsgp

theorem should_group_congr_length (g : Bool) (us1 us2 : List String)
    (h : us1.length = us2.length) : should_group g us1 = should_group g us2 := by
  unfold should_group
  rw [h]

theorem consolidateLoop_id (g : Bool) (o : List (String × List String)) (st : PassState)
    (hgood : ∀ p ∈ o, should_group g p.2 = true →
      p.1 ∈ st.wsDeps ∧ ∀ u ∈ p.2, StableFor st.members u p.1) :
    consolidateLoop g o st = (st, none) := by
  induction o with
  | nil => rfl
  | cons q rest ih =>
    obtain ⟨dep, users⟩ := q
    by_cases hsg : should_group g users = true
    · obtain ⟨hd, hs⟩ := hgood (dep, users) (by simp) hsg
      have hc : st.wsDeps.contains dep = true := (contains_iff _ _).mpr hd
      have hupd : updateUsers dep users st.members = (st.members, none) :=
        updateUsers_id dep users st.members hs
      have hpd : processDep g dep users st = (st, none) := by
        rw [processDep_grouped_present g dep users st hsg hc, hupd]
      rw [consolidateLoop_cons_ok g dep users rest st st hpd]
      exact ih (fun p hp => hgood p (by simp [hp]))
    · have hsgf : should_group g users = false := by
        cases hh : should_group g users
        · rfl
        · exact absurd hh hsg
      rw [consolidateLoop_cons_ok g dep users rest st st
        (processDep_not_grouped g dep users st hsgf)]
      exact ih (fun p hp => hgood p (by simp [hp]))

/-- C2: running the pass a second time over the output of a successful
first run — with any iteration order of the same usage map — changes no
file: the second run succeeds and returns the disk exactly as the first
run left it. -/
theorem c2_consolidate_idempotent (g : Bool) (o1 o2 : List (String × List String))
    (disk disk1 : Disk) (hco : UsageCompat o1 o2)
    (h1 : consolidate g o1 disk = (disk1, none)) :
    consolidate g o2 disk1 = (disk1, none) := by
  simp only [consolidate] at h1 ⊢
  cases hl : consolidateLoop g o1
      ⟨disk.root, get_workspace_dependencies disk.root, disk.members⟩ with
  | mk stF eo =>
    rw [hl] at h1
    cases eo with
    | some e => simp at h1
    | none =>
      have h1e : ((⟨stF.root, stF.members⟩ : Disk), (none : Option ConsErr)) =
          (disk1, none) := h1
      have hd1 : (⟨stF.root, stF.members⟩ : Disk) = disk1 := congrArg Prod.fst h1e
      have hgood := consolidateLoop_good g o1
        ⟨disk.root, get_workspace_dependencies disk.root, disk.members⟩ stF hl
        (fun x hx => hx)
      have hroot : disk1.root = stF.root := by rw [← hd1]
      have hmem : disk1.members = stF.members := by rw [← hd1]
      have hid : consolidateLoop g o2
          ⟨disk1.root, get_workspace_dependencies disk1.root, disk1.members⟩ =
          (⟨disk1.root, get_workspace_dependencies disk1.root, disk1.members⟩, none) := by
        apply consolidateLoop_id
        intro p hp hsgp
        obtain ⟨q, hq, hq1, hq2, hq3⟩ := hco p hp
        have hsgq : should_group g q.2 = true := by
          rw [should_group_congr_length g q.2 p.2 hq2]
          exact hsgp
        obtain ⟨hqd, hqs⟩ := hgood q hq hsgq
        constructor
        · show p.1 ∈ get_workspace_dependencies disk1.root
          rw [hroot, ← hq1]
          exact hqd
        · intro u hu
          show StableFor disk1.members u p.1
          rw [hmem, ← hq1]
          exact hqs u (hq3 u hu)
      rw [hid]

/-- Witness for C2, on an already-consolidated workspace: the pass is the
identity on it, so running it on its own output changes nothing. -/
theorem c2_consolidate_idempotent_witness :
    consolidate false c2order c2disk = (c2disk, none) :=
  c2_consolidate_idempotent false c2order c2order c2disk c2disk
    (fun p hp => ⟨p, hp, rfl, rfl, fun u hu => hu⟩) (by rfl)

end CargoConsolidate
